/-
Verification of the layered curriculum-graph renderer.

Shallow embedding of the TypeScript sources:
  * `src/components/IsometricGraph.tsx` — lineage BFS, visibility filter,
    ring/scatter layout, perspective projection, camera animation loop;
  * the application component (`App`) — `handleGenerate`, `directRelations`.

Conventions of the embedding:
  * Link endpoints are stored as plain id strings.  The defensive
    normalization in the source (`typeof l.source === 'object' ? l.source.id
    : l.source`) is the identity on this representation.
  * JavaScript truthiness on strings is modelled explicitly: a test
    `if (s)` on a `string | null` value is `s ≠ null ∧ s ≠ ""`.
  * JavaScript `Map` built from an entry list resolves duplicate keys to the
    last entry; `Array.find` returns the first match.  Both are modelled.
  * Real-valued quantities (angles, radii, screen coordinates) use `ℝ`.
-/
import Mathlib

namespace EduMatrix

/-- The four hierarchy tiers (`LayerType` in `types.ts`). -/
inductive LayerType where
  | objective
  | requirement
  | course
  | knowledge
deriving DecidableEq, Repr

/-- A graph node (`NodeData` in `types.ts`); the optional numeric `value`
field is unused by every code path under verification and is omitted. -/
structure NodeData where
  id : String
  label : String
  layer : Nat
  type : LayerType
  description : Option String := none
deriving DecidableEq, Repr

/-- A link record (`LinkData` in `types.ts`), endpoints as id strings. -/
structure LinkData where
  source : String
  target : String
deriving DecidableEq, Repr

/-- The document (`GraphData` in `types.ts`). -/
structure GraphData where
  nodes : List NodeData
  links : List LinkData
deriving DecidableEq, Repr

/-- Lookup in the JavaScript `Map` built by
`new Map(data.nodes.map(n => [n.id, n]))`: the LAST entry for a duplicated
key wins. -/
def nodeMapGet (doc : GraphData) (i : String) : Option NodeData :=
  doc.nodes.foldl (fun acc n => if n.id = i then some n else acc) none

/-- `data.nodes.find(n => n.id === i)`: first match. -/
def findNode (doc : GraphData) (i : String) : Option NodeData :=
  doc.nodes.find? (fun n => n.id == i)

/-- The ids of the document's nodes. -/
def nodeIds (doc : GraphData) : List String :=
  doc.nodes.map (fun n => n.id)

/-! ## Lineage resolution (`IsometricGraph.tsx`, lines 62–130)

The source orients every link by the endpoints' layer values, building
`parentsMap` and `childrenMap`, then runs two breadth-first traversals. -/

/-- Orientation of one link into `(parentId, childId)`, mirroring the loop
body at lines 68–95.  Returns `none` when an endpoint id does not resolve
through the node map, when the two endpoints share a layer, or — because the
guard in the source is `if (parentId && childId)` and the empty string is
falsy in JavaScript — when either oriented endpoint id is `""`. -/
def linkParentChild (doc : GraphData) (l : LinkData) : Option (String × String) :=
  match nodeMapGet doc l.source, nodeMapGet doc l.target with
  | some sNode, some tNode =>
      if sNode.layer < tNode.layer then
        if l.source ≠ "" ∧ l.target ≠ "" then some (l.source, l.target) else none
      else if tNode.layer < sNode.layer then
        if l.target ≠ "" ∧ l.source ≠ "" then some (l.target, l.source) else none
      else none
  | _, _ => none

/-- `parentsMap[c]` as a list: all parents reachable in one oriented link. -/
def parentsOf (doc : GraphData) (c : String) : List String :=
  doc.links.filterMap (fun l =>
    match linkParentChild doc l with
    | some pc => if pc.2 = c then some pc.1 else none
    | none => none)

/-- `childrenMap[p]` as a list. -/
def childrenOf (doc : GraphData) (p : String) : List String :=
  doc.links.filterMap (fun l =>
    match linkParentChild doc l with
    | some pc => if pc.1 = p then some pc.2 else none
    | none => none)

/-- One pass of the inner `for (const p of parents)` loop of the BFS: fold
the neighbour list into `(visited, queue)`, adding each neighbour not yet
visited to both. -/
def bfsPush : List String × List String → List String → List String × List String
  | vq, [] => vq
  | (v, q), p :: ps =>
      if v.contains p then bfsPush (v, q) ps else bfsPush (p :: v, q ++ [p]) ps

/-- The `while (queue.length > 0)` traversal, fuelled.  Each step pops the
queue head and pushes its unvisited neighbours (lines 103–113 / 118–128).
The fuel only needs to exceed the number of possible pops, which is bounded
by the number of distinct node ids plus one. -/
def bfsRun (adj : String → List String) : Nat → List String → List String → List String
  | 0, _, visited => visited
  | _ + 1, [], visited => visited
  | fuel + 1, c :: rest, visited =>
      let vq := bfsPush (visited, rest) (adj c)
      bfsRun adj fuel vq.2 vq.1

/-- Progress measure for the fuelled traversal: node ids not yet visited
plus the queue length.  Each `bfsRun` step strictly decreases it, which
bounds the number of pops by `bfsMeasure univ [sel] [sel]`. -/
def bfsMeasure (univ visited queue : List String) : Nat :=
  (univ.toFinset \ visited.toFinset).card + queue.length

/-- The lineage (focus chain) of a selected id: the selected id together
with everything visited by the upward and the downward BFS.  The result is
read as a set (the source stores it in a `Set<string>`). -/
def lineage (doc : GraphData) (sel : String) : List String :=
  bfsRun (parentsOf doc) (doc.nodes.length + 1) [sel] [sel] ++
    bfsRun (childrenOf doc) (doc.nodes.length + 1) [sel] [sel]

/-- JavaScript truthiness of the `selectedNodeId : string | null` prop:
active when non-null and non-empty. -/
def selActive : Option String → Bool
  | none => false
  | some s => s != ""

/-- The `focusChain` state established by the lineage effect (lines 55–60,
97–130): empty when the selection is falsy, otherwise the lineage set. -/
def lineageState (doc : GraphData) (sel : Option String) : List String :=
  match sel with
  | some s => if s ≠ "" then lineage doc s else []
  | none => []

/-! ## Visibility filter (`displayNodes`, lines 235–250) -/

/-- `connectionCounts[i]`: every link record naming `i` as source or target
contributes, with no check that the other endpoint resolves; a self-loop
contributes twice. -/
def connectionCount (doc : GraphData) (i : String) : Nat :=
  doc.links.foldl
    (fun acc l => acc + (if l.source = i then 1 else 0) + (if l.target = i then 1 else 0)) 0

/-- The display (visibility) filter over the document's nodes. -/
def displayNodes (doc : GraphData) (sel : Option String) (showAllKnowledge : Bool) :
    List NodeData :=
  doc.nodes.filter (fun n =>
    (selActive sel && (lineageState doc sel).contains n.id) ||
      (n.layer != 3) || showAllKnowledge || decide (1 < connectionCount doc n.id))

/-! ## Application state and `handleGenerate` (App component, lines 30–42) -/

/-- The slice of `App` state that `handleGenerate` touches, with user
notifications (`alert` calls) recorded in order. -/
structure AppState where
  data : GraphData
  selectedNode : Option NodeData
  isLoading : Bool
  alerts : List String
deriving DecidableEq, Repr

/-- The generic failure notification text shown by `handleGenerate`. -/
def generateFailureMessage : String := "生成失败，请重试。"

/-- `handleGenerate`: guarded by the truthiness of the input text; the
awaited generator call is modelled by its outcome `result`.  On success the
document is swapped wholesale and the selection cleared; on failure a single
generic alert is issued and nothing else changes; `finally` clears the busy
flag.  The generator is invoked exactly once (no retry). -/
def handleGenerate (st : AppState) (majorInput : String)
    (result : Except Unit GraphData) : AppState :=
  if majorInput = "" then st
  else
    match result with
    | Except.ok newData =>
        { st with data := newData, selectedNode := none, isLoading := false }
    | Except.error _ =>
        { st with isLoading := false, alerts := st.alerts ++ [generateFailureMessage] }

/-! ## Real-valued geometry: constants, layout, projection, camera loops -/

noncomputable section

open Real

/-- Vertical distance between layers. -/
def LAYER_GAP : ℝ := 180

/-- Top pyramid radius. -/
def BASE_RADIUS_TOP : ℝ := 80

/-- Radius growth per layer. -/
def RADIUS_INCREMENT : ℝ := 140

/-- Focal length of the perspective divide. -/
def FOCAL_LENGTH : ℝ := 1200

/-- `getLayerRadius` from the source. -/
def getLayerRadius (layer : Nat) : ℝ := BASE_RADIUS_TOP + layer * RADIUS_INCREMENT

/-- A 3D point. -/
structure Point3D where
  x : ℝ
  y : ℝ
  z : ℝ

/-- A projected point: screen position, perspective scale, depth key. -/
structure Point2D where
  x : ℝ
  y : ℝ
  scale : ℝ
  zIndex : ℝ

/-- The angular position assigned to the `i`-th of `count` nodes of a layer:
golden-angle sequence for layer 3, uniform step with per-layer offset
otherwise (lines 142–150 and 270–277 share this formula). -/
def layoutTheta (layerIndex i count : Nat) : ℝ :=
  if layerIndex = 3 then (i : ℝ) * (π * (3 - Real.sqrt 5))
  else (i : ℝ) * (2 * π / count) + (layerIndex : ℝ) * (π / 4)

/-- The radius assigned to the `i`-th of `count` nodes of a layer. -/
def layoutRadius (layerIndex i count : Nat) : ℝ :=
  if layerIndex = 3 then getLayerRadius 3 + Real.sqrt ((i : ℝ) / count) * 80
  else getLayerRadius layerIndex

/-- The 3D position of the `i`-th of `count` nodes of a layer. -/
def layoutPoint (layerIndex i count : Nat) : Point3D :=
  { x := layoutRadius layerIndex i count * Real.cos (layoutTheta layerIndex i count)
    y := ((layerIndex : ℝ) - 1.5) * LAYER_GAP
    z := layoutRadius layerIndex i count * Real.sin (layoutTheta layerIndex i count) }

/-- The per-layer `layerNodes.forEach((node, i) => …)` loop of `nodes3D`,
carrying the running index. -/
def layoutLayer (layerIndex count : Nat) : Nat → List NodeData → List (NodeData × Point3D)
  | _, [] => []
  | i, n :: rest =>
      (n, layoutPoint layerIndex i count) :: layoutLayer layerIndex count (i + 1) rest

/-- `nodes3D` (lines 253–291): group the display nodes into the four layer
buckets (a node whose layer is outside 0–3 is dropped by the optional
chaining `layers[n.layer]?.push(n)`), then place each bucket; buckets are
emitted in ascending layer order (`Object.entries` order for the integer
keys 0–3). -/
def nodes3D (doc : GraphData) (sel : Option String) (showAll : Bool) :
    List (NodeData × Point3D) :=
  let dn := displayNodes doc sel showAll
  ([0, 1, 2, 3].map (fun k =>
    let ln := dn.filter (fun n => n.layer == k)
    layoutLayer k ln.length 0 ln)).flatten

/-- The ids present in the laid-out scene (`activeNodeIds`). -/
def nodes3DIds (doc : GraphData) (sel : Option String) (showAll : Bool) : List String :=
  (nodes3D doc sel showAll).map (fun p => p.1.id)

/-- `activeLinks` (lines 364–396), reduced to the data that decides
inclusion: a link survives only if both endpoint ids are among the laid-out
nodes and, under an active selection, both lie in the focus chain (in which
case it is highlighted).  The Boolean is `isHighlighted`. -/
def activeLinks (doc : GraphData) (sel : Option String) (showAll : Bool) :
    List (String × String × Bool) :=
  doc.links.filterMap (fun l =>
    if (nodes3DIds doc sel showAll).contains l.source
        && (nodes3DIds doc sel showAll).contains l.target then
      if selActive sel then
        if (lineageState doc sel).contains l.source
            && (lineageState doc sel).contains l.target then
          some (l.source, l.target, true)
        else none
      else some (l.source, l.target, false)
    else none)

/-- `project` (lines 293–309): rotate about the vertical axis, perspective
divide with a camera-depth floor of 10, then center on the viewport. -/
def project (width height : ℝ) (p : Point3D) (angleY : ℝ) : Point2D :=
  let c := Real.cos angleY
  let s := Real.sin angleY
  let rx := p.x * c - p.z * s
  let rz := p.z * c + p.x * s
  let ry := p.y
  let cameraZ := rz + FOCAL_LENGTH
  let scale := FOCAL_LENGTH / max cameraZ 10
  { x := width / 2 + rx * scale
    y := height / 2 + ry * scale
    scale := scale
    zIndex := rz }

/-- `while (diff > Math.PI) diff -= Math.PI * 2` (animation loop, line 215). -/
def subLoop (d : ℝ) : ℝ :=
  if h : π < d then subLoop (d - 2 * π) else d
termination_by (⌈(d - π) / (2 * π)⌉).toNat
decreasing_by
  have hπ : (0 : ℝ) < π := Real.pi_pos
  have h2π : (0 : ℝ) < 2 * π := by linarith
  have heq : (d - 2 * π - π) / (2 * π) = (d - π) / (2 * π) - 1 := by
    field_simp
    ring
  have hone : 0 < ⌈(d - π) / (2 * π)⌉ := Int.ceil_pos.mpr (div_pos (by linarith) h2π)
  simp only [heq, Int.ceil_sub_one]
  omega

/-- `while (diff < -Math.PI) diff += Math.PI * 2` (animation loop, line 214). -/
def addLoop (d : ℝ) : ℝ :=
  if h : d < -π then addLoop (d + 2 * π) else d
termination_by (⌈(-π - d) / (2 * π)⌉).toNat
decreasing_by
  have hπ : (0 : ℝ) < π := Real.pi_pos
  have h2π : (0 : ℝ) < 2 * π := by linarith
  have heq : (-π - (d + 2 * π)) / (2 * π) = (-π - d) / (2 * π) - 1 := by
    field_simp
    ring
  have hone : 0 < ⌈(-π - d) / (2 * π)⌉ := Int.ceil_pos.mpr (div_pos (by linarith) h2π)
  simp only [heq, Int.ceil_sub_one]
  omega

/-- The animation loop's normalization of `target - current`: the add loop
runs first, then the subtract loop (lines 213–215). -/
def normDiff (d : ℝ) : ℝ := subLoop (addLoop d)

/-- One animation tick with no drag active (lines 210–225), on the state
`(rotation, targetRotation)`.  With a target: ease 8% of the normalized
difference, snapping (and clearing the target) below the 0.005 threshold.
Without a target: idle auto-rotation. -/
def tick (s : ℝ × Option ℝ) : ℝ × Option ℝ :=
  match s.2 with
  | some t =>
      let d := normDiff (t - s.1)
      if |d| < 0.005 then (t, none) else (s.1 + d * 0.08, some t)
  | none => (s.1 + 0.0005, none)

/-- `while (targetR - currentRot > Math.PI) targetR -= twoPi` (line 155). -/
def targetSubLoop (t c : ℝ) : ℝ :=
  if h : π < t - c then targetSubLoop (t - 2 * π) c else t
termination_by (⌈(t - c - π) / (2 * π)⌉).toNat
decreasing_by
  have hπ : (0 : ℝ) < π := Real.pi_pos
  have h2π : (0 : ℝ) < 2 * π := by linarith
  have heq : (t - 2 * π - c - π) / (2 * π) = (t - c - π) / (2 * π) - 1 := by
    field_simp
    ring
  have hone : 0 < ⌈(t - c - π) / (2 * π)⌉ := Int.ceil_pos.mpr (div_pos (by linarith) h2π)
  simp only [heq, Int.ceil_sub_one]
  omega

/-- `while (targetR - currentRot < -Math.PI) targetR += twoPi` (line 156). -/
def targetAddLoop (t c : ℝ) : ℝ :=
  if h : t - c < -π then targetAddLoop (t + 2 * π) c else t
termination_by (⌈(-π - (t - c)) / (2 * π)⌉).toNat
decreasing_by
  have hπ : (0 : ℝ) < π := Real.pi_pos
  have h2π : (0 : ℝ) < 2 * π := by linarith
  have heq : (-π - (t + 2 * π - c)) / (2 * π) = (-π - (t - c)) / (2 * π) - 1 := by
    field_simp
    ring
  have hone : 0 < ⌈(-π - (t - c)) / (2 * π)⌉ := Int.ceil_pos.mpr (div_pos (by linarith) h2π)
  simp only [heq, Int.ceil_sub_one]
  omega

/-- Target-rotation computation on selection (lines 132–159): find the
selected node, index it among ALL nodes of its layer in the document (the
layout, by contrast, indexes among the visible nodes), apply the layer's
angle formula, aim `π/2 - θ` at the viewer and normalize toward the current
rotation. -/
def targetRotationFor (doc : GraphData) (sel : String) (currentRot : ℝ) : Option ℝ :=
  match findNode doc sel with
  | none => none
  | some targetNode =>
      let layerNodes := doc.nodes.filter (fun n => n.layer == targetNode.layer)
      let count := layerNodes.length
      let idx0 := layerNodes.indexOf targetNode
      let nodeIndex := if idx0 < count then idx0 else 0
      let theta := layoutTheta targetNode.layer nodeIndex count
      some (targetAddLoop (targetSubLoop (π / 2 - theta) currentRot) currentRot)

end

/-! ## Inspector: `directRelations` (App component, lines 71–96) -/

/-- The triple of lists accumulated by `directRelations`. -/
structure DirectRelations where
  upstream : List NodeData
  downstream : List NodeData
  links : List LinkData
deriving DecidableEq, Repr

/-- The id of the endpoint opposite the selected id, if the link touches the
selected id (`tId === sel` is tested first, so a self-loop yields the
source). -/
def otherEndpoint (selId : String) (l : LinkData) : Option String :=
  if l.target = selId then some l.source
  else if l.source = selId then some l.target
  else none

/-- The body of `directRelations`' `forEach` over the links: the guard in
the source is `if (otherId)`, so an empty-string opposite id is skipped by
JavaScript truthiness; a resolvable neighbour is classified by strict layer
comparison and its link recorded regardless of the comparison's outcome. -/
def directRelationsStep (doc : GraphData) (s : NodeData) (acc : DirectRelations)
    (l : LinkData) : DirectRelations :=
  match otherEndpoint s.id l with
  | some otherId =>
      if otherId ≠ "" then
        match findNode doc otherId with
        | some otherNode =>
            if otherNode.layer < s.layer then
              { acc with upstream := acc.upstream ++ [otherNode],
                         links := acc.links ++ [l] }
            else if s.layer < otherNode.layer then
              { acc with downstream := acc.downstream ++ [otherNode],
                         links := acc.links ++ [l] }
            else { acc with links := acc.links ++ [l] }
        | none => acc
      else acc
  | none => acc

/-- `directRelations`: one pass over the links accumulating the upstream
and downstream neighbour lists and the relevant-link list. -/
def directRelations (doc : GraphData) (sel : Option NodeData) : DirectRelations :=
  match sel with
  | none => ⟨[], [], []⟩
  | some s => doc.links.foldl (directRelationsStep doc s) ⟨[], [], []⟩

/-! ## Specification-side step relations for lineage

These phrase, independently of the BFS code, what one traversal step is:
following one stored link from a child id to a parent id whose layers are
strictly ordered, both endpoints resolving through the node map and neither
id empty. -/

/-- One ancestor step: from `a` to `b` along a stored link whose endpoints
resolve to nodes with `b`'s layer strictly below `a`'s. -/
def AncStep (doc : GraphData) (a b : String) : Prop :=
  ∃ l ∈ doc.links,
    ((l.source = b ∧ l.target = a) ∨ (l.source = a ∧ l.target = b)) ∧
    ∃ pn cn : NodeData,
      nodeMapGet doc b = some pn ∧ nodeMapGet doc a = some cn ∧
      pn.layer < cn.layer ∧ b ≠ "" ∧ a ≠ ""

/-- One descendant step: from `a` to `b` toward a strictly larger layer. -/
def DescStep (doc : GraphData) (a b : String) : Prop := AncStep doc b a

/-! ## Concrete documents used as test inputs -/

/-- A document whose root node has the empty string as id. -/
def docEmptyParent : GraphData :=
  { nodes := [⟨"", "root", 0, .objective, none⟩, ⟨"a", "child", 1, .requirement, none⟩]
    links := [⟨"", "a"⟩] }

/-- The three-layer chain `A(0) ← B(1) ← C(2)` of the spec's end-to-end
scenario. -/
def docChain : GraphData :=
  { nodes := [⟨"A", "A", 0, .objective, none⟩, ⟨"B", "B", 1, .requirement, none⟩,
              ⟨"C", "C", 2, .course, none⟩]
    links := [⟨"B", "A"⟩, ⟨"C", "B"⟩] }

/-- A lone layer-3 node whose two links both dangle (the opposite ids
resolve to no node). -/
def docGhostLinks : GraphData :=
  { nodes := [⟨"k", "k", 3, .knowledge, none⟩]
    links := [⟨"k", "g1"⟩, ⟨"g2", "k"⟩] }

/-- A single layer-0 node, for layout and target-rotation evaluation. -/
def docSingleObjective : GraphData :=
  { nodes := [⟨"a", "alpha", 0, .objective, none⟩]
    links := [] }

/-- A selected node whose only neighbour has the empty string as id. -/
def docEmptyNeighbor : GraphData :=
  { nodes := [⟨"", "root", 0, .objective, none⟩, ⟨"s", "sel", 1, .requirement, none⟩]
    links := [⟨"", "s"⟩] }

/-- The selected node of `docEmptyNeighbor`. -/
def selEmptyNeighbor : NodeData := ⟨"s", "sel", 1, .requirement, none⟩

/-! # Theorems -/

/-- C8: when the generation call fails, the document is retained unchanged,
the selection is retained, and the failure surfaces as exactly one generic
notification appended to the alert log (the single consumed `result` models
the absence of any internal retry). -/
theorem handleGenerate_failure_retains_state (st : AppState) (mi : String) (hmi : mi ≠ "") :
    (handleGenerate st mi (Except.error ())).data = st.data ∧
      (handleGenerate st mi (Except.error ())).selectedNode = st.selectedNode ∧
      (handleGenerate st mi (Except.error ())).alerts =
        st.alerts ++ [generateFailureMessage] := by
  simp [handleGenerate, hmi]

/-- Witness for C8 at a concrete state and input. -/
theorem handleGenerate_failure_retains_state_witness :
    (handleGenerate ⟨⟨[], []⟩, none, false, []⟩ "math" (Except.error ())).data = ⟨[], []⟩ ∧
      (handleGenerate ⟨⟨[], []⟩, none, false, []⟩ "math" (Except.error ())).selectedNode =
        none ∧
      (handleGenerate ⟨⟨[], []⟩, none, false, []⟩ "math" (Except.error ())).alerts =
        [] ++ [generateFailureMessage] :=
  handleGenerate_failure_retains_state ⟨⟨[], []⟩, none, false, []⟩ "math" (by decide)

/-- C3: a node is displayed iff it belongs to the document and: the
selection is active and the node's id is in the lineage set, or its layer is
not 3, or the show-all toggle is on, or its degree exceeds one. -/
theorem displayNodes_mem_iff (doc : GraphData) (sel : Option String) (showAll : Bool)
    (n : NodeData) :
    n ∈ displayNodes doc sel showAll ↔
      n ∈ doc.nodes ∧
        ((selActive sel = true ∧ n.id ∈ lineageState doc sel) ∨
          n.layer ≠ 3 ∨ showAll = true ∨ 1 < connectionCount doc n.id) := by
  simp only [displayNodes, List.mem_filter, Bool.or_eq_true, Bool.and_eq_true,
    bne_iff_ne, ne_eq, decide_eq_true_eq, List.contains, List.elem_iff]
  tauto

/-- C9: the degree used by the visibility filter counts raw link records —
each link naming the id as source and each naming it as target, with no
check that the other endpoint resolves; consequently the layer-3 node of
`docGhostLinks`, whose links all dangle, is displayed with show-all off and
no selection; and a self-loop link contributes exactly 2 to its node's
degree. -/
theorem connectionCount_counts_raw_links :
    (∀ (doc : GraphData) (i : String),
        connectionCount doc i =
          doc.links.countP (fun l => l.source == i) +
            doc.links.countP (fun l => l.target == i)) ∧
      (⟨"k", "k", 3, .knowledge, none⟩ : NodeData) ∈ displayNodes docGhostLinks none false ∧
      (∀ (ns : List NodeData) (pre post : List LinkData) (i : String),
        connectionCount ⟨ns, pre ++ ⟨i, i⟩ :: post⟩ i =
          connectionCount ⟨ns, pre ++ post⟩ i + 2) := by
  have key : ∀ (ls : List LinkData) (i : String) (acc : Nat),
      ls.foldl
          (fun acc l =>
            acc + (if l.source = i then 1 else 0) + (if l.target = i then 1 else 0)) acc =
        acc + ls.countP (fun l => l.source == i) + ls.countP (fun l => l.target == i) := by
    intro ls i
    induction ls with
    | nil => simp
    | cons l rest ih =>
        intro acc
        simp only [List.foldl_cons, List.countP_cons, ih]
        by_cases hs : l.source = i <;> by_cases ht : l.target = i <;>
          simp [hs, ht] <;> omega
  refine ⟨fun doc i => by simpa using key doc.links i 0, by decide, ?_⟩
  intro ns pre post i
  have h1 := key (pre ++ ⟨i, i⟩ :: post) i 0
  have h2 := key (pre ++ post) i 0
  simp only [connectionCount] at h1 h2 ⊢
  rw [h1, h2]
  simp only [List.countP_append, List.countP_cons]
  simp
  omega

/-- C4: the projector's perspective scale is `FOCAL_LENGTH` over the
camera depth floored at 10: it equals 1 exactly when the camera depth equals
the focal length, and is always positive and at most `FOCAL_LENGTH / 10`;
the screen position is the viewport centre plus the rotated x/y scaled, and
the depth key is the rotated z. -/
theorem project_scale_spec (w h : ℝ) (p : Point3D) (θ : ℝ) :
    ((p.z * Real.cos θ + p.x * Real.sin θ) + FOCAL_LENGTH = FOCAL_LENGTH →
        (project w h p θ).scale = 1) ∧
      0 < (project w h p θ).scale ∧
      (project w h p θ).scale ≤ FOCAL_LENGTH / 10 ∧
      (project w h p θ).x =
        w / 2 + (p.x * Real.cos θ - p.z * Real.sin θ) * (project w h p θ).scale ∧
      (project w h p θ).y = h / 2 + p.y * (project w h p θ).scale ∧
      (project w h p θ).zIndex = p.z * Real.cos θ + p.x * Real.sin θ := by
  simp only [project, FOCAL_LENGTH]
  set rz := p.z * Real.cos θ + p.x * Real.sin θ with hrz
  have hmax : (10 : ℝ) ≤ max (rz + 1200) 10 := le_max_right _ _
  have hmaxpos : (0 : ℝ) < max (rz + 1200) 10 := by linarith
  refine ⟨?_, ?_, ?_, by trivial, by trivial, by trivial⟩
  · intro hdepth
    have hz : rz = 0 := by linarith
    rw [hz]
    rw [show ((0 : ℝ) + 1200) = 1200 by ring, max_eq_left (by norm_num)]
    norm_num
  · exact div_pos (by norm_num) hmaxpos
  · gcongr

/-- Witness for C4 at the origin with zero camera angle. -/
theorem project_scale_spec_witness :
    (project 800 600 ⟨0, 0, 0⟩ 0).scale = 1 ∧ 0 < (project 800 600 ⟨0, 0, 0⟩ 0).scale :=
  ⟨(project_scale_spec 800 600 ⟨0, 0, 0⟩ 0).1 (by norm_num),
    (project_scale_spec 800 600 ⟨0, 0, 0⟩ 0).2.1⟩

/-! ### Properties of the angle-normalization loops -/

open Real

lemma subLoop_le (d : ℝ) : subLoop d ≤ π := by
  induction d using subLoop.induct with
  | case1 d h ih => rw [subLoop, dif_pos h]; exact ih
  | case2 d h => rw [subLoop, dif_neg h]; linarith

lemma subLoop_ge (d : ℝ) (hd : -π ≤ d) : -π ≤ subLoop d := by
  induction d using subLoop.induct with
  | case1 d h ih =>
      rw [subLoop, dif_pos h]
      exact ih (by linarith)
  | case2 d h => rw [subLoop, dif_neg h]; exact hd

lemma addLoop_ge (d : ℝ) : -π ≤ addLoop d := by
  induction d using addLoop.induct with
  | case1 d h ih => rw [addLoop, dif_pos h]; exact ih
  | case2 d h => rw [addLoop, dif_neg h]; linarith

lemma addLoop_le (d : ℝ) (hd : d ≤ π) : addLoop d ≤ π := by
  have hπ : (0 : ℝ) < π := Real.pi_pos
  induction d using addLoop.induct with
  | case1 d h ih => rw [addLoop, dif_pos h]; exact ih (by linarith)
  | case2 d h => rw [addLoop, dif_neg h]; exact hd

lemma subLoop_modEq (d : ℝ) : ∃ k : ℤ, subLoop d = d - 2 * π * k := by
  induction d using subLoop.induct with
  | case1 d h ih =>
      obtain ⟨k, hk⟩ := ih
      refine ⟨k + 1, ?_⟩
      rw [subLoop, dif_pos h, hk]
      push_cast
      ring
  | case2 d h => exact ⟨0, by rw [subLoop, dif_neg h]; push_cast; ring⟩

lemma addLoop_modEq (d : ℝ) : ∃ k : ℤ, addLoop d = d + 2 * π * k := by
  induction d using addLoop.induct with
  | case1 d h ih =>
      obtain ⟨k, hk⟩ := ih
      refine ⟨k + 1, ?_⟩
      rw [addLoop, dif_pos h, hk]
      push_cast
      ring
  | case2 d h => exact ⟨0, by rw [addLoop, dif_neg h]; push_cast; ring⟩

lemma normDiff_mem (d : ℝ) : normDiff d ∈ Set.Icc (-π) π :=
  ⟨subLoop_ge _ (addLoop_ge d), subLoop_le _⟩

lemma normDiff_modEq (d : ℝ) : ∃ k : ℤ, normDiff d - d = 2 * π * k := by
  obtain ⟨k₁, h₁⟩ := addLoop_modEq d
  obtain ⟨k₂, h₂⟩ := subLoop_modEq (addLoop d)
  refine ⟨k₁ - k₂, ?_⟩
  rw [normDiff, h₂, h₁]
  push_cast
  ring

lemma normDiff_eq_self (d : ℝ) (h₁ : -π ≤ d) (h₂ : d ≤ π) : normDiff d = d := by
  rw [normDiff, addLoop, dif_neg (by linarith), subLoop, dif_neg (by linarith)]

lemma targetSubLoop_le (t c : ℝ) : targetSubLoop t c - c ≤ π := by
  induction t, c using targetSubLoop.induct with
  | case1 t c h ih => rw [targetSubLoop, dif_pos h]; exact ih
  | case2 t c h => rw [targetSubLoop, dif_neg h]; linarith

lemma targetAddLoop_ge (t c : ℝ) : -π ≤ targetAddLoop t c - c := by
  induction t, c using targetAddLoop.induct with
  | case1 t c h ih => rw [targetAddLoop, dif_pos h]; exact ih
  | case2 t c h => rw [targetAddLoop, dif_neg h]; linarith

lemma targetAddLoop_le (t c : ℝ) (hd : t - c ≤ π) : targetAddLoop t c - c ≤ π := by
  have hπ : (0 : ℝ) < π := Real.pi_pos
  induction t, c using targetAddLoop.induct with
  | case1 t c h ih => rw [targetAddLoop, dif_pos h]; exact ih (by linarith)
  | case2 t c h => rw [targetAddLoop, dif_neg h]; exact hd

lemma targetSubLoop_modEq (t c : ℝ) : ∃ k : ℤ, targetSubLoop t c = t - 2 * π * k := by
  induction t, c using targetSubLoop.induct with
  | case1 t c h ih =>
      obtain ⟨k, hk⟩ := ih
      refine ⟨k + 1, ?_⟩
      rw [targetSubLoop, dif_pos h, hk]
      push_cast
      ring
  | case2 t c h => exact ⟨0, by rw [targetSubLoop, dif_neg h]; push_cast; ring⟩

lemma targetAddLoop_modEq (t c : ℝ) : ∃ k : ℤ, targetAddLoop t c = t + 2 * π * k := by
  induction t, c using targetAddLoop.induct with
  | case1 t c h ih =>
      obtain ⟨k, hk⟩ := ih
      refine ⟨k + 1, ?_⟩
      rw [targetAddLoop, dif_pos h, hk]
      push_cast
      ring
  | case2 t c h => exact ⟨0, by rw [targetAddLoop, dif_neg h]; push_cast; ring⟩

lemma targetSubLoop_eq_self (t c : ℝ) (h : t - c ≤ π) : targetSubLoop t c = t := by
  rw [targetSubLoop, dif_neg (by linarith)]

lemma targetAddLoop_eq_self (t c : ℝ) (h : -π ≤ t - c) : targetAddLoop t c = t := by
  rw [targetAddLoop, dif_neg (by linarith)]

/-! ### C5: camera easing -/

/-- Counterexample to C5 as stated: with rotation `0` and target `-π`, the
loop's normalization leaves the difference at `-π`, which is NOT inside the
claimed interval `(-π, π]`, and the tick eases by 8% of that value. -/
theorem tick_neg_pi_counterexample :
    normDiff (-π) = -π ∧ (-π) ∉ Set.Ioc (-π) π ∧
      tick (0, some (-π)) = (0 + -π * 0.08, some (-π)) := by
  have hπ : (0 : ℝ) < π := Real.pi_pos
  have h3 : (3 : ℝ) < π := Real.pi_gt_three
  have hself : normDiff (-π) = -π := normDiff_eq_self _ le_rfl (by linarith)
  refine ⟨hself, by simp, ?_⟩
  simp only [tick, sub_zero, hself]
  rw [if_neg]
  rw [abs_neg, abs_of_pos hπ]
  intro hlt
  linarith

/-- C5 (amended: the normalized difference lies in the closed interval
`[-π, π]`, the open-at-`-π` phrasing failing only at exactly `-π`): each
tick with a target and no drag normalizes `target - current` by whole turns
into `[-π, π]`; below the 0.005 threshold it snaps to the target and clears
it, otherwise it advances by the fraction 0.08 of the normalized
difference.  Starting at rotation 0 with target `π`, 79 ticks reach exactly
`π` with the target cleared. -/
theorem tick_normalized_ease :
    (∀ r t : ℝ,
        normDiff (t - r) ∈ Set.Icc (-π) π ∧
          (∃ k : ℤ, normDiff (t - r) - (t - r) = 2 * π * k) ∧
          (|normDiff (t - r)| < 0.005 → tick (r, some t) = (t, none)) ∧
          (0.005 ≤ |normDiff (t - r)| →
            tick (r, some t) = (r + normDiff (t - r) * 0.08, some t))) ∧
      tick^[79] ((0 : ℝ), some π) = (π, none) := by
  have hπ : (0 : ℝ) < π := Real.pi_pos
  constructor
  · intro r t
    refine ⟨normDiff_mem _, normDiff_modEq _, ?_, ?_⟩
    · intro hlt
      simp only [tick, if_pos hlt]
    · intro hge
      simp only [tick, if_neg (not_lt.mpr hge)]
  · have hlb : (0.005 : ℝ) ≤ 3.141592 * 0.92 ^ 77 := by norm_num
    have hub : (3.15 : ℝ) * 0.92 ^ 78 < 0.005 := by norm_num
    have hgt : (3.141592 : ℝ) < π := Real.pi_gt_d6
    have hlt315 : π < 3.15 := Real.pi_lt_d2
    have hchain : ∀ n : ℕ, n ≤ 78 →
        tick^[n] ((0 : ℝ), some π) = (π - π * 0.92 ^ n, some π) := by
      intro n
      induction n with
      | zero => intro _; simp
      | succ n ih =>
          intro hn
          rw [Function.iterate_succ_apply', ih (by omega)]
          have hpow_pos : (0 : ℝ) < 0.92 ^ n := by positivity
          have hpow_le : (0.92 : ℝ) ^ n ≤ 1 := pow_le_one₀ (by norm_num) (by norm_num)
          have hd_pos : (0 : ℝ) < π * 0.92 ^ n := by positivity
          have hd_le : π * 0.92 ^ n ≤ π := by nlinarith
          have harg : π - (π - π * 0.92 ^ n) = π * 0.92 ^ n := by ring
          have hnorm : normDiff (π - (π - π * 0.92 ^ n)) = π * 0.92 ^ n := by
            rw [harg]
            exact normDiff_eq_self _ (by linarith) hd_le
          have hthr : (0.005 : ℝ) ≤ π * 0.92 ^ n := by
            have h77 : (0.92 : ℝ) ^ 77 ≤ 0.92 ^ n :=
              pow_le_pow_of_le_one (by norm_num) (by norm_num) (by omega)
            nlinarith
          simp only [tick, hnorm]
          rw [if_neg (by rw [abs_of_pos hd_pos]; linarith)]
          refine Prod.ext ?_ rfl
          show π - π * 0.92 ^ n + π * 0.92 ^ n * 0.08 = π - π * 0.92 ^ (n + 1)
          rw [pow_succ]
          ring
    have h78 := hchain 78 le_rfl
    rw [show (79 : ℕ) = 78 + 1 from rfl, Function.iterate_succ_apply', h78]
    have hd_pos : (0 : ℝ) < π * 0.92 ^ 78 := by positivity
    have harg : π - (π - π * 0.92 ^ 78) = π * 0.92 ^ 78 := by ring
    have hd_le : π * 0.92 ^ 78 ≤ π := by
      have : (0.92 : ℝ) ^ 78 ≤ 1 := pow_le_one₀ (by norm_num) (by norm_num)
      nlinarith
    have hnorm : normDiff (π - (π - π * 0.92 ^ 78)) = π * 0.92 ^ 78 := by
      rw [harg]
      exact normDiff_eq_self _ (by linarith) hd_le
    simp only [tick, hnorm]
    rw [if_pos (by rw [abs_of_pos hd_pos]; nlinarith)]

/-- Witness for C5 at rotation 0, target `π`: the above-threshold branch. -/
theorem tick_normalized_ease_witness :
    tick ((0 : ℝ), some π) = (0 + normDiff (π - 0) * 0.08, some π) :=
  (tick_normalized_ease.1 0 π).2.2.2 (by
    have hπ : (0 : ℝ) < π := Real.pi_pos
    have h3 : (3 : ℝ) < π := Real.pi_gt_three
    rw [normDiff_eq_self (π - 0) (by linarith) (by linarith), sub_zero,
      abs_of_pos hπ]
    linarith)

/-! ### C2: target rotation on selection -/

/-- C2: whenever selecting `sel` sets a target rotation `t`, then `t` is
`π/2 - θ` up to whole turns, where `θ` is the selected node's ring angle
computed with its index among ALL nodes of its layer in the document (the
layout indexes among the visible nodes instead), and the normalization
placed `t` within half a turn of the current rotation: `t - c ∈ [-π, π]`. -/
theorem targetRotation_faces_viewer (doc : GraphData) (sel : String) (c t : ℝ)
    (tn : NodeData) (hfind : findNode doc sel = some tn)
    (ht : targetRotationFor doc sel c = some t) :
    ∃ k : ℤ,
      t - (π / 2 -
          (if tn.layer = 3 then
              ((doc.nodes.filter (fun n => n.layer == tn.layer)).indexOf tn : ℝ) *
                (π * (3 - Real.sqrt 5))
            else
              ((doc.nodes.filter (fun n => n.layer == tn.layer)).indexOf tn : ℝ) *
                  (2 * π / (doc.nodes.filter (fun n => n.layer == tn.layer)).length) +
                (tn.layer : ℝ) * (π / 4))) = 2 * π * k ∧
      t - c ∈ Set.Icc (-π) π := by
  have hmem : tn ∈ doc.nodes.filter (fun n => n.layer == tn.layer) :=
    List.mem_filter.mpr ⟨List.mem_of_find?_eq_some hfind, by simp⟩
  have hidx : (doc.nodes.filter (fun n => n.layer == tn.layer)).indexOf tn <
      (doc.nodes.filter (fun n => n.layer == tn.layer)).length :=
    List.indexOf_lt_length.mpr hmem
  rw [targetRotationFor, hfind] at ht
  simp only [if_pos hidx, Option.some.injEq] at ht
  set L := doc.nodes.filter (fun n => n.layer == tn.layer) with hL
  set X := π / 2 - layoutTheta tn.layer (L.indexOf tn) L.length with hX
  obtain ⟨k₁, h₁⟩ := targetSubLoop_modEq X c
  obtain ⟨k₂, h₂⟩ := targetAddLoop_modEq (targetSubLoop X c) c
  have hθ : (if tn.layer = 3 then
        ((L.indexOf tn : ℝ)) * (π * (3 - Real.sqrt 5))
      else
        ((L.indexOf tn : ℝ)) * (2 * π / L.length) + (tn.layer : ℝ) * (π / 4)) =
      layoutTheta tn.layer (L.indexOf tn) L.length := by
    rw [layoutTheta]
  refine ⟨k₂ - k₁, ?_, ?_, ?_⟩
  · rw [hθ, ← hX, ← ht, h₂, h₁]
    push_cast
    ring
  · rw [← ht]
    exact targetAddLoop_ge _ _
  · rw [← ht]
    exact targetAddLoop_le _ _ (targetSubLoop_le _ _)

/-- Witness for C2 on a one-node document: the target is exactly `π/2` and
lies within half a turn of the current rotation 0. -/
theorem targetRotation_faces_viewer_witness :
    targetRotationFor docSingleObjective "a" 0 = some (π / 2) ∧
      π / 2 - 0 ∈ Set.Icc (-π) π := by
  have hπ : (0 : ℝ) < π := Real.pi_pos
  have hfind : findNode docSingleObjective "a" =
      some ⟨"a", "alpha", 0, .objective, none⟩ := by decide
  have hθ : layoutTheta 0 0 1 = 0 := by simp [layoutTheta]
  have ht : targetRotationFor docSingleObjective "a" 0 = some (π / 2) := by
    rw [targetRotationFor, hfind]
    simp only [docSingleObjective]
    norm_num [List.filter, List.indexOf_cons_self]
    rw [hθ, sub_zero, targetSubLoop_eq_self _ _ (by linarith),
      targetAddLoop_eq_self _ _ (by linarith)]
  refine ⟨ht, ?_⟩
  obtain ⟨k, hk, hicc⟩ :=
    targetRotation_faces_viewer docSingleObjective "a" 0 (π / 2) _ hfind ht
  exact hicc

/-! ### C6: 3D layout -/

lemma layoutLayer_get_mem (k count : Nat) :
    ∀ (l : List NodeData) (i0 j : Nat) (h : j < l.length),
      (l.get ⟨j, h⟩, layoutPoint k (i0 + j) count) ∈ layoutLayer k count i0 l := by
  intro l
  induction l with
  | nil => intro i0 j h; simp at h
  | cons n rest ih =>
      intro i0 j h
      match j with
      | 0 => simp [layoutLayer]
      | j + 1 =>
          have hj : j < rest.length := by simpa using h
          have hmem := ih (i0 + 1) j hj
          have harith : i0 + 1 + j = i0 + (j + 1) := by omega
          rw [harith] at hmem
          rw [layoutLayer]
          refine List.mem_cons_of_mem _ ?_
          simpa using hmem

/-- C6: the `j`-th visible node of layer `k` (`k ≤ 3`) is laid out at
`x = r·cos θ`, `y = (k − 1.5)·180`, `z = r·sin θ`, with the golden-angle
scatter radius/angle for layer 3 and the uniform ring with per-layer offset
otherwise.  The formulas are functions of the node ordering and counts
alone, so the layout is deterministic. -/
theorem nodes3D_layout (doc : GraphData) (sel : Option String) (showAll : Bool)
    (k : Nat) (hk : k ≤ 3) (L : List NodeData)
    (hLdef : L = (displayNodes doc sel showAll).filter (fun n => n.layer == k))
    (j : Nat) (hj : j < L.length) :
    (L.get ⟨j, hj⟩,
      Point3D.mk
        ((if k = 3 then 80 + 3 * 140 + Real.sqrt ((j : ℝ) / (L.length : ℝ)) * 80
            else 80 + (k : ℝ) * 140) *
          Real.cos (if k = 3 then (j : ℝ) * (π * (3 - Real.sqrt 5))
            else (j : ℝ) * (2 * π / (L.length : ℝ)) + (k : ℝ) * (π / 4)))
        (((k : ℝ) - 1.5) * 180)
        ((if k = 3 then 80 + 3 * 140 + Real.sqrt ((j : ℝ) / (L.length : ℝ)) * 80
            else 80 + (k : ℝ) * 140) *
          Real.sin (if k = 3 then (j : ℝ) * (π * (3 - Real.sqrt 5))
            else (j : ℝ) * (2 * π / (L.length : ℝ)) + (k : ℝ) * (π / 4)))) ∈
      nodes3D doc sel showAll := by
  have hpt :
      Point3D.mk
        ((if k = 3 then 80 + 3 * 140 + Real.sqrt ((j : ℝ) / (L.length : ℝ)) * 80
            else 80 + (k : ℝ) * 140) *
          Real.cos (if k = 3 then (j : ℝ) * (π * (3 - Real.sqrt 5))
            else (j : ℝ) * (2 * π / (L.length : ℝ)) + (k : ℝ) * (π / 4)))
        (((k : ℝ) - 1.5) * 180)
        ((if k = 3 then 80 + 3 * 140 + Real.sqrt ((j : ℝ) / (L.length : ℝ)) * 80
            else 80 + (k : ℝ) * 140) *
          Real.sin (if k = 3 then (j : ℝ) * (π * (3 - Real.sqrt 5))
            else (j : ℝ) * (2 * π / (L.length : ℝ)) + (k : ℝ) * (π / 4))) =
        layoutPoint k j L.length := by
    simp only [layoutPoint, layoutRadius, layoutTheta, getLayerRadius, BASE_RADIUS_TOP,
      RADIUS_INCREMENT, LAYER_GAP]
    by_cases h3 : k = 3 <;> simp [h3]
  rw [hpt]
  have hmem := layoutLayer_get_mem k L.length L 0 j hj
  rw [zero_add] at hmem
  simp only [nodes3D]
  rw [List.mem_flatten]
  refine ⟨layoutLayer k L.length 0 L, ?_, hmem⟩
  rw [List.mem_map]
  refine ⟨k, ?_, by rw [← hLdef]⟩
  interval_cases k <;> simp

/-- Witness for C6: the single layer-0 node of `docSingleObjective` at
index 0. -/
theorem nodes3D_layout_witness :
    (([(⟨"a", "alpha", 0, .objective, none⟩ : NodeData)].get ⟨0, by decide⟩,
      Point3D.mk
        ((if (0 : Nat) = 3 then
            80 + 3 * 140 +
              Real.sqrt (((0 : Nat) : ℝ) /
                (([(⟨"a", "alpha", 0, .objective, none⟩ : NodeData)].length : ℝ))) * 80
          else 80 + ((0 : Nat) : ℝ) * 140) *
          Real.cos (if (0 : Nat) = 3 then ((0 : Nat) : ℝ) * (π * (3 - Real.sqrt 5))
            else ((0 : Nat) : ℝ) *
                (2 * π / (([(⟨"a", "alpha", 0, .objective, none⟩ : NodeData)].length : ℝ))) +
              ((0 : Nat) : ℝ) * (π / 4)))
        ((((0 : Nat) : ℝ) - 1.5) * 180)
        ((if (0 : Nat) = 3 then
            80 + 3 * 140 +
              Real.sqrt (((0 : Nat) : ℝ) /
                (([(⟨"a", "alpha", 0, .objective, none⟩ : NodeData)].length : ℝ))) * 80
          else 80 + ((0 : Nat) : ℝ) * 140) *
          Real.sin (if (0 : Nat) = 3 then ((0 : Nat) : ℝ) * (π * (3 - Real.sqrt 5))
            else ((0 : Nat) : ℝ) *
                (2 * π / (([(⟨"a", "alpha", 0, .objective, none⟩ : NodeData)].length : ℝ))) +
              ((0 : Nat) : ℝ) * (π / 4)))) ∈
      nodes3D docSingleObjective none false) :=
  nodes3D_layout docSingleObjective none false 0 (by norm_num)
    [⟨"a", "alpha", 0, .objective, none⟩] (by decide) 0 (by decide)

/-! ### C7: rendered link set -/

/-- C7: a stored link appears in the rendered link set iff both endpoint
ids are among the laid-out (visible) nodes and, whenever the selection is
active, both endpoints are in the lineage set; otherwise the link is
omitted from the set entirely. -/
theorem activeLinks_mem_iff (doc : GraphData) (sel : Option String) (showAll : Bool)
    (l : LinkData) (hl : l ∈ doc.links) :
    (∃ b, (l.source, l.target, b) ∈ activeLinks doc sel showAll) ↔
      (l.source ∈ nodes3DIds doc sel showAll ∧ l.target ∈ nodes3DIds doc sel showAll ∧
        (selActive sel = true →
          l.source ∈ lineageState doc sel ∧ l.target ∈ lineageState doc sel)) := by
  have hcont : ∀ (xs : List String) (x : String), xs.contains x = true ↔ x ∈ xs := by
    intro xs x
    simp [List.contains, List.elem_iff]
  constructor
  · rintro ⟨b, hb⟩
    obtain ⟨l', hl', hf⟩ := List.mem_filterMap.mp hb
    by_cases h1 : ((nodes3DIds doc sel showAll).contains l'.source &&
        (nodes3DIds doc sel showAll).contains l'.target) = true
    · rw [if_pos h1] at hf
      obtain ⟨hs, ht⟩ := Bool.and_eq_true_iff.mp h1
      by_cases hact : selActive sel = true
      · rw [if_pos hact] at hf
        by_cases h2 : ((lineageState doc sel).contains l'.source &&
            (lineageState doc sel).contains l'.target) = true
        · rw [if_pos h2] at hf
          obtain ⟨hfs, hft⟩ := Bool.and_eq_true_iff.mp h2
          simp only [Option.some.injEq, Prod.mk.injEq] at hf
          obtain ⟨he1, he2, _⟩ := hf
          rw [he1] at hs hfs
          rw [he2] at ht hft
          exact ⟨(hcont _ _).mp hs, (hcont _ _).mp ht,
            fun _ => ⟨(hcont _ _).mp hfs, (hcont _ _).mp hft⟩⟩
        · rw [if_neg h2] at hf
          exact absurd hf (by simp)
      · rw [if_neg hact] at hf
        simp only [Option.some.injEq, Prod.mk.injEq] at hf
        obtain ⟨he1, he2, _⟩ := hf
        rw [he1] at hs
        rw [he2] at ht
        exact ⟨(hcont _ _).mp hs, (hcont _ _).mp ht, fun h => absurd h hact⟩
    · rw [if_neg h1] at hf
      exact absurd hf (by simp)
  · rintro ⟨hs, ht, himp⟩
    have h1 : ((nodes3DIds doc sel showAll).contains l.source &&
        (nodes3DIds doc sel showAll).contains l.target) = true :=
      Bool.and_eq_true_iff.mpr ⟨(hcont _ _).mpr hs, (hcont _ _).mpr ht⟩
    by_cases hact : selActive sel = true
    · obtain ⟨hfs, hft⟩ := himp hact
      refine ⟨true, List.mem_filterMap.mpr ⟨l, hl, ?_⟩⟩
      rw [if_pos h1, if_pos hact,
        if_pos (Bool.and_eq_true_iff.mpr ⟨(hcont _ _).mpr hfs, (hcont _ _).mpr hft⟩)]
    · refine ⟨false, List.mem_filterMap.mpr ⟨l, hl, ?_⟩⟩
      rw [if_pos h1, if_neg hact]

/-- Witness for C7: the link `B → A` of the chain document with no
selection. -/
theorem activeLinks_mem_iff_witness :
    (∃ b, ((⟨"B", "A"⟩ : LinkData).source, (⟨"B", "A"⟩ : LinkData).target, b) ∈
        activeLinks docChain none false) ↔
      ((⟨"B", "A"⟩ : LinkData).source ∈ nodes3DIds docChain none false ∧
        (⟨"B", "A"⟩ : LinkData).target ∈ nodes3DIds docChain none false ∧
        (selActive none = true →
          (⟨"B", "A"⟩ : LinkData).source ∈ lineageState docChain none ∧
            (⟨"B", "A"⟩ : LinkData).target ∈ lineageState docChain none)) :=
  activeLinks_mem_iff docChain none false ⟨"B", "A"⟩ (by decide)

/-! ### C1: lineage — BFS correctness -/

lemma containsb_iff (xs : List String) (x : String) : xs.contains x = true ↔ x ∈ xs := by
  simp [List.contains, List.elem_iff]

lemma bfsPush_fst_mem :
    ∀ (ns v q : List String) (x : String),
      x ∈ (bfsPush (v, q) ns).1 ↔ x ∈ v ∨ x ∈ ns := by
  intro ns
  induction ns with
  | nil => intro v q x; simp [bfsPush]
  | cons p ps ih =>
      intro v q x
      rw [bfsPush]
      by_cases hc : v.contains p = true
      · rw [if_pos hc, ih]
        have hp : p ∈ v := (containsb_iff v p).mp hc
        constructor
        · rintro (h | h)
          · exact Or.inl h
          · exact Or.inr (List.mem_cons_of_mem _ h)
        · rintro (h | h)
          · exact Or.inl h
          · rcases List.mem_cons.mp h with rfl | h
            · exact Or.inl hp
            · exact Or.inr h
      · rw [if_neg hc, ih]
        simp only [List.mem_cons]
        tauto

lemma bfsPush_snd_mem :
    ∀ (ns v q : List String) (x : String),
      x ∈ (bfsPush (v, q) ns).2 ↔ x ∈ q ∨ (x ∈ ns ∧ x ∉ v) := by
  intro ns
  induction ns with
  | nil => intro v q x; simp [bfsPush]
  | cons p ps ih =>
      intro v q x
      rw [bfsPush]
      by_cases hc : v.contains p = true
      · rw [if_pos hc, ih]
        have hp : p ∈ v := (containsb_iff v p).mp hc
        constructor
        · rintro (h | ⟨h1, h2⟩)
          · exact Or.inl h
          · exact Or.inr ⟨List.mem_cons_of_mem _ h1, h2⟩
        · rintro (h | ⟨h1, h2⟩)
          · exact Or.inl h
          · rcases List.mem_cons.mp h1 with rfl | h1
            · exact absurd hp h2
            · exact Or.inr ⟨h1, h2⟩
      · rw [if_neg hc, ih]
        have hp : p ∉ v := fun hmem => hc ((containsb_iff v p).mpr hmem)
        by_cases hxp : x = p
        · subst hxp
          simp [List.mem_append, hp]
        · simp only [List.mem_append, List.mem_cons, List.mem_singleton, hxp,
            false_or, or_false]
          tauto

lemma bfsRun_mono (adj : String → List String) :
    ∀ (fuel : Nat) (q v : List String), v ⊆ bfsRun adj fuel q v := by
  intro fuel
  induction fuel with
  | zero => intro q v x hx; simp only [bfsRun]; exact hx
  | succ fuel ih =>
      intro q v
      cases q with
      | nil => intro x hx; simp only [bfsRun]; exact hx
      | cons c rest =>
          intro x hx
          simp only [bfsRun]
          exact ih _ _ ((bfsPush_fst_mem _ _ _ _).mpr (Or.inl hx))

lemma bfsRun_sound (adj : String → List String) (r0 : String) :
    ∀ (fuel : Nat) (q v : List String),
      (∀ x ∈ v, Relation.ReflTransGen (fun a b => b ∈ adj a) r0 x) →
      (∀ x ∈ q, x ∈ v) →
      ∀ x ∈ bfsRun adj fuel q v, Relation.ReflTransGen (fun a b => b ∈ adj a) r0 x := by
  intro fuel
  induction fuel with
  | zero => intro q v hv _ x hx; simp only [bfsRun] at hx; exact hv x hx
  | succ fuel ih =>
      intro q v hv hq x hx
      cases q with
      | nil => simp only [bfsRun] at hx; exact hv x hx
      | cons c rest =>
          simp only [bfsRun] at hx
          refine ih _ _ ?_ ?_ x hx
          · intro y hy
            rcases (bfsPush_fst_mem _ _ _ _).mp hy with h | h
            · exact hv y h
            · exact Relation.ReflTransGen.tail (hv c (hq c (List.mem_cons_self c rest))) h
          · intro y hy
            rcases (bfsPush_snd_mem _ _ _ _).mp hy with h | ⟨h1, _⟩
            · exact (bfsPush_fst_mem _ _ _ _).mpr
                (Or.inl (hq y (List.mem_cons_of_mem _ h)))
            · exact (bfsPush_fst_mem _ _ _ _).mpr (Or.inr h1)

lemma bfsPush_measure (univ : List String) :
    ∀ (ns v q : List String), (∀ p ∈ ns, p ∈ univ) →
      bfsMeasure univ (bfsPush (v, q) ns).1 (bfsPush (v, q) ns).2 ≤ bfsMeasure univ v q := by
  intro ns
  induction ns with
  | nil => intro v q _; exact le_refl _
  | cons p ps ih =>
      intro v q hU
      rw [bfsPush]
      by_cases hc : v.contains p = true
      · rw [if_pos hc]
        exact ih v q (fun y hy => hU y (List.mem_cons_of_mem _ hy))
      · rw [if_neg hc]
        refine le_trans
          (ih (p :: v) (q ++ [p]) (fun y hy => hU y (List.mem_cons_of_mem _ hy))) ?_
        have hp_univ : p ∈ univ := hU p (List.mem_cons_self p ps)
        have hp_nv : p ∉ v := fun hmem => hc ((containsb_iff v p).mpr hmem)
        have hpA : p ∈ univ.toFinset \ v.toFinset :=
          Finset.mem_sdiff.mpr ⟨List.mem_toFinset.mpr hp_univ,
            fun hpv => hp_nv (List.mem_toFinset.mp hpv)⟩
        have hsd : univ.toFinset \ (p :: v).toFinset =
            (univ.toFinset \ v.toFinset).erase p := by
          rw [List.toFinset_cons]
          ext a
          simp only [Finset.mem_sdiff, Finset.mem_erase, Finset.mem_insert]
          tauto
        have hcard : 1 ≤ (univ.toFinset \ v.toFinset).card :=
          Finset.card_pos.mpr ⟨p, hpA⟩
        simp only [bfsMeasure, hsd, List.length_append, List.length_singleton,
          Finset.card_erase_of_mem hpA]
        omega

lemma bfsRun_closed (adj : String → List String) (univ : List String)
    (hU : ∀ a, ∀ p ∈ adj a, p ∈ univ) :
    ∀ (fuel : Nat) (q v : List String),
      (∀ x ∈ q, x ∈ v) →
      (∀ x ∈ v, x ∈ q ∨ ∀ p ∈ adj x, p ∈ v) →
      bfsMeasure univ v q ≤ fuel →
      ∀ x ∈ bfsRun adj fuel q v, ∀ p ∈ adj x, p ∈ bfsRun adj fuel q v := by
  intro fuel
  induction fuel with
  | zero =>
      intro q v hq hinv hm x hx p hp
      have hq0 : q = [] := by
        simp only [bfsMeasure] at hm
        exact List.length_eq_zero.mp (by omega)
      subst hq0
      simp only [bfsRun] at hx ⊢
      rcases hinv x hx with h | h
      · simp at h
      · exact h p hp
  | succ fuel ih =>
      intro q v hq hinv hm x hx p hp
      cases q with
      | nil =>
          simp only [bfsRun] at hx ⊢
          rcases hinv x hx with h | h
          · simp at h
          · exact h p hp
      | cons c rest =>
          simp only [bfsRun] at hx ⊢
          have hq' : ∀ y ∈ (bfsPush (v, rest) (adj c)).2,
              y ∈ (bfsPush (v, rest) (adj c)).1 := by
            intro y hy
            rcases (bfsPush_snd_mem _ _ _ _).mp hy with h | ⟨h1, _⟩
            · exact (bfsPush_fst_mem _ _ _ _).mpr
                (Or.inl (hq y (List.mem_cons_of_mem _ h)))
            · exact (bfsPush_fst_mem _ _ _ _).mpr (Or.inr h1)
          have hinv' : ∀ y ∈ (bfsPush (v, rest) (adj c)).1,
              y ∈ (bfsPush (v, rest) (adj c)).2 ∨
                ∀ p' ∈ adj y, p' ∈ (bfsPush (v, rest) (adj c)).1 := by
            intro y hy
            by_cases hyv : y ∈ v
            · by_cases hyc : y = c
              · subst hyc
                exact Or.inr fun p' hp' => (bfsPush_fst_mem _ _ _ _).mpr (Or.inr hp')
              · rcases hinv y hyv with hq0 | hcl
                · rcases List.mem_cons.mp hq0 with h | h
                  · exact absurd h hyc
                  · exact Or.inl ((bfsPush_snd_mem _ _ _ _).mpr (Or.inl h))
                · exact Or.inr fun p' hp' =>
                    (bfsPush_fst_mem _ _ _ _).mpr (Or.inl (hcl p' hp'))
            · rcases (bfsPush_fst_mem _ _ _ _).mp hy with hyv' | hyadj
              · exact absurd hyv' hyv
              · exact Or.inl ((bfsPush_snd_mem _ _ _ _).mpr (Or.inr ⟨hyadj, hyv⟩))
          have hm' : bfsMeasure univ (bfsPush (v, rest) (adj c)).1
              (bfsPush (v, rest) (adj c)).2 ≤ fuel := by
            have h1 := bfsPush_measure univ (adj c) v rest (hU c)
            have h2 : bfsMeasure univ v (c :: rest) = bfsMeasure univ v rest + 1 := by
              simp only [bfsMeasure, List.length_cons]
              omega
            omega
          exact ih _ _ hq' hinv' hm' x hx p hp

lemma bfsRun_spec (adj : String → List String) (univ : List String)
    (hU : ∀ a, ∀ p ∈ adj a, p ∈ univ) (r0 : String) (fuel : Nat)
    (hfuel : bfsMeasure univ [r0] [r0] ≤ fuel) (x : String) :
    x ∈ bfsRun adj fuel [r0] [r0] ↔
      Relation.ReflTransGen (fun a b => b ∈ adj a) r0 x := by
  constructor
  · intro hx
    refine bfsRun_sound adj r0 fuel [r0] [r0] ?_ (fun y hy => hy) x hx
    intro y hy
    rw [List.mem_singleton] at hy
    subst hy
    exact Relation.ReflTransGen.refl
  · intro hrtg
    induction hrtg with
    | refl => exact bfsRun_mono adj fuel [r0] [r0] (List.mem_singleton.mpr rfl)
    | tail hab hstep ih =>
        exact bfsRun_closed adj univ hU fuel [r0] [r0] (fun y hy => hy)
          (fun y hy => Or.inl hy) hfuel _ ih _ hstep

lemma nodeMapGet_eq_some (doc : GraphData) (i : String) (n : NodeData)
    (h : nodeMapGet doc i = some n) : n ∈ doc.nodes ∧ n.id = i := by
  have aux : ∀ (ns : List NodeData) (acc : Option NodeData),
      ns.foldl (fun acc m => if m.id = i then some m else acc) acc = some n →
      acc = some n ∨ (n ∈ ns ∧ n.id = i) := by
    intro ns
    induction ns with
    | nil => intro acc h; exact Or.inl h
    | cons m rest ih =>
        intro acc h
        rcases ih _ h with h' | h'
        · have h'' : (if m.id = i then some m else acc) = some n := h'
          by_cases hm : m.id = i
          · rw [if_pos hm] at h''
            injection h'' with h3
            subst h3
            exact Or.inr ⟨List.mem_cons_self _ _, hm⟩
          · rw [if_neg hm] at h''
            exact Or.inl h''
        · exact Or.inr ⟨List.mem_cons_of_mem _ h'.1, h'.2⟩
  rcases aux doc.nodes none h with h' | h'
  · exact absurd h' (by simp)
  · exact h'

lemma nodeMapGet_mem_nodeIds (doc : GraphData) (i : String) (n : NodeData)
    (h : nodeMapGet doc i = some n) : i ∈ nodeIds doc := by
  obtain ⟨hmem, hid⟩ := nodeMapGet_eq_some doc i n h
  exact hid ▸ List.mem_map_of_mem _ hmem

lemma linkParentChild_eq_some_iff (doc : GraphData) (l : LinkData) (a b : String) :
    linkParentChild doc l = some (a, b) ↔
      ((l.source = a ∧ l.target = b) ∨ (l.source = b ∧ l.target = a)) ∧
        ∃ pn cn : NodeData, nodeMapGet doc a = some pn ∧ nodeMapGet doc b = some cn ∧
          pn.layer < cn.layer ∧ a ≠ "" ∧ b ≠ "" := by
  rw [linkParentChild]
  rcases hs : nodeMapGet doc l.source with _ | sNode <;>
    rcases ht : nodeMapGet doc l.target with _ | tNode
  · constructor
    · intro h; exact absurd h (by simp)
    · rintro ⟨hep, pn, cn, hpn, hcn, hlt, ha, hb⟩
      rcases hep with ⟨h1, h2⟩ | ⟨h1, h2⟩
      · rw [h1] at hs; rw [hs] at hpn; exact absurd hpn (by simp)
      · rw [h1] at hs; rw [hs] at hcn; exact absurd hcn (by simp)
  · constructor
    · intro h; exact absurd h (by simp)
    · rintro ⟨hep, pn, cn, hpn, hcn, hlt, ha, hb⟩
      rcases hep with ⟨h1, h2⟩ | ⟨h1, h2⟩
      · rw [h1] at hs; rw [hs] at hpn; exact absurd hpn (by simp)
      · rw [h1] at hs; rw [hs] at hcn; exact absurd hcn (by simp)
  · constructor
    · intro h; exact absurd h (by simp)
    · rintro ⟨hep, pn, cn, hpn, hcn, hlt, ha, hb⟩
      rcases hep with ⟨h1, h2⟩ | ⟨h1, h2⟩
      · rw [h2] at ht; rw [ht] at hcn; exact absurd hcn (by simp)
      · rw [h2] at ht; rw [ht] at hpn; exact absurd hpn (by simp)
  · simp only []
    split_ifs with hlt hne htlt hne'
    · constructor
      · intro h
        simp only [Option.some.injEq, Prod.mk.injEq] at h
        obtain ⟨h1, h2⟩ := h
        refine ⟨Or.inl ⟨h1, h2⟩, sNode, tNode, ?_, ?_, hlt, ?_, ?_⟩
        · rw [← h1]; exact hs
        · rw [← h2]; exact ht
        · rw [← h1]; exact hne.1
        · rw [← h2]; exact hne.2
      · rintro ⟨hep, pn, cn, hpn, hcn, hplt, ha, hb⟩
        rcases hep with ⟨h1, h2⟩ | ⟨h1, h2⟩
        · rw [h1, h2]
        · rw [h1] at hs; rw [h2] at ht
          rw [hs] at hcn; rw [ht] at hpn
          injection hpn with e1; injection hcn with e2
          subst e1; subst e2
          omega
    · constructor
      · intro h; exact absurd h (by simp)
      · rintro ⟨hep, pn, cn, hpn, hcn, hplt, ha, hb⟩
        rcases hep with ⟨h1, h2⟩ | ⟨h1, h2⟩
        · exact absurd ⟨h1 ▸ ha, h2 ▸ hb⟩ hne
        · rw [h1] at hs; rw [h2] at ht
          rw [hs] at hcn; rw [ht] at hpn
          injection hpn with e1; injection hcn with e2
          subst e1; subst e2
          omega
    · constructor
      · intro h
        simp only [Option.some.injEq, Prod.mk.injEq] at h
        obtain ⟨h1, h2⟩ := h
        refine ⟨Or.inr ⟨h2, h1⟩, tNode, sNode, ?_, ?_, htlt, ?_, ?_⟩
        · rw [← h1]; exact ht
        · rw [← h2]; exact hs
        · rw [← h1]; exact hne'.1
        · rw [← h2]; exact hne'.2
      · rintro ⟨hep, pn, cn, hpn, hcn, hplt, ha, hb⟩
        rcases hep with ⟨h1, h2⟩ | ⟨h1, h2⟩
        · rw [h1] at hs; rw [h2] at ht
          rw [hs] at hpn; rw [ht] at hcn
          injection hpn with e1; injection hcn with e2
          subst e1; subst e2
          omega
        · rw [h1, h2]
    · constructor
      · intro h; exact absurd h (by simp)
      · rintro ⟨hep, pn, cn, hpn, hcn, hplt, ha, hb⟩
        rcases hep with ⟨h1, h2⟩ | ⟨h1, h2⟩
        · rw [h1] at hs; rw [h2] at ht
          rw [hs] at hpn; rw [ht] at hcn
          injection hpn with e1; injection hcn with e2
          subst e1; subst e2
          omega
        · exact absurd ⟨h2 ▸ ha, h1 ▸ hb⟩ hne'
    · constructor
      · intro h; exact absurd h (by simp)
      · rintro ⟨hep, pn, cn, hpn, hcn, hplt, ha, hb⟩
        rcases hep with ⟨h1, h2⟩ | ⟨h1, h2⟩
        · rw [h1] at hs; rw [h2] at ht
          rw [hs] at hpn; rw [ht] at hcn
          injection hpn with e1; injection hcn with e2
          subst e1; subst e2
          omega
        · rw [h1] at hs; rw [h2] at ht
          rw [hs] at hcn; rw [ht] at hpn
          injection hpn with e1; injection hcn with e2
          subst e1; subst e2
          omega

lemma parentsOf_iff (doc : GraphData) (c p : String) :
    p ∈ parentsOf doc c ↔ AncStep doc c p := by
  rw [parentsOf, List.mem_filterMap, AncStep]
  constructor
  · rintro ⟨l, hl, hf⟩
    have hpc : linkParentChild doc l = some (p, c) := by
      rcases h : linkParentChild doc l with _ | ⟨x, y⟩
      · rw [h] at hf; exact absurd hf (by simp)
      · rw [h] at hf
        have hf' : (if y = c then some x else none) = some p := hf
        by_cases hyc : y = c
        · rw [if_pos hyc] at hf'
          injection hf' with hx
          rw [hx, hyc]
        · rw [if_neg hyc] at hf'; exact absurd hf' (by simp)
    obtain ⟨hep, rest⟩ := (linkParentChild_eq_some_iff doc l p c).mp hpc
    exact ⟨l, hl, hep, rest⟩
  · rintro ⟨l, hl, hep, rest⟩
    refine ⟨l, hl, ?_⟩
    rw [(linkParentChild_eq_some_iff doc l p c).mpr ⟨hep, rest⟩]
    simp

lemma childrenOf_iff (doc : GraphData) (p c : String) :
    c ∈ childrenOf doc p ↔ AncStep doc c p := by
  rw [childrenOf, List.mem_filterMap, AncStep]
  constructor
  · rintro ⟨l, hl, hf⟩
    have hpc : linkParentChild doc l = some (p, c) := by
      rcases h : linkParentChild doc l with _ | ⟨x, y⟩
      · rw [h] at hf; exact absurd hf (by simp)
      · rw [h] at hf
        have hf' : (if x = p then some y else none) = some c := hf
        by_cases hxp : x = p
        · rw [if_pos hxp] at hf'
          injection hf' with hy
          rw [hxp, hy]
        · rw [if_neg hxp] at hf'; exact absurd hf' (by simp)
    obtain ⟨hep, rest⟩ := (linkParentChild_eq_some_iff doc l p c).mp hpc
    exact ⟨l, hl, hep, rest⟩
  · rintro ⟨l, hl, hep, rest⟩
    refine ⟨l, hl, ?_⟩
    rw [(linkParentChild_eq_some_iff doc l p c).mpr ⟨hep, rest⟩]
    simp

lemma parentsOf_subset_nodeIds (doc : GraphData) :
    ∀ a, ∀ p ∈ parentsOf doc a, p ∈ nodeIds doc := by
  intro a p hp
  obtain ⟨l, hl, hep, pn, cn, hpn, hcn, hlt, hb, ha⟩ := (parentsOf_iff doc a p).mp hp
  exact nodeMapGet_mem_nodeIds doc p pn hpn

lemma childrenOf_subset_nodeIds (doc : GraphData) :
    ∀ a, ∀ c ∈ childrenOf doc a, c ∈ nodeIds doc := by
  intro a c hc
  obtain ⟨l, hl, hep, pn, cn, hpn, hcn, hlt, hb, ha⟩ := (childrenOf_iff doc a c).mp hc
  exact nodeMapGet_mem_nodeIds doc c cn hcn

lemma lineage_fuel (doc : GraphData) (sel : String) :
    bfsMeasure (nodeIds doc) [sel] [sel] ≤ doc.nodes.length + 1 := by
  simp only [bfsMeasure, List.length_singleton]
  have h1 : ((nodeIds doc).toFinset \ [sel].toFinset).card ≤ (nodeIds doc).toFinset.card :=
    Finset.card_le_card (Finset.sdiff_subset)
  have h2 : (nodeIds doc).toFinset.card ≤ (nodeIds doc).length := (nodeIds doc).toFinset_card_le
  have h3 : (nodeIds doc).length = doc.nodes.length := by simp [nodeIds]
  omega

/-- Counterexample to C1 as stated: in `docEmptyParent` the link `"" → a`
has BOTH endpoints resolving to nodes whose layers differ (0 < 1), yet the
lineage of `a` does not contain `""`: the source's `if (parentId && childId)`
guard drops any oriented link whose parent or child id is the empty string
(falsy in JavaScript). -/
theorem lineage_empty_id_counterexample :
    (⟨"", "root", 0, .objective, none⟩ : NodeData) ∈ docEmptyParent.nodes ∧
      (⟨"a", "child", 1, .requirement, none⟩ : NodeData) ∈ docEmptyParent.nodes ∧
      (⟨"", "a"⟩ : LinkData) ∈ docEmptyParent.links ∧
      nodeMapGet docEmptyParent "" = some ⟨"", "root", 0, .objective, none⟩ ∧
      nodeMapGet docEmptyParent "a" = some ⟨"a", "child", 1, .requirement, none⟩ ∧
      "a" ∈ nodeIds docEmptyParent ∧
      "" ∉ lineage docEmptyParent "a" := by decide

/-- C1 (amended: links either of whose oriented endpoint ids is the empty
string are also excluded from the traversal): for every document and
selected id present in it, the lineage set is exactly the selected id plus
everything reachable by repeatedly stepping toward strictly smaller layers
(`AncStep`) or repeatedly stepping toward strictly larger layers
(`DescStep`), where a step requires a stored link whose two endpoint ids
resolve through the node map to nodes with strictly ordered layers and
neither endpoint id empty. -/
theorem lineage_resolves (doc : GraphData) (sel : String) (hsel : sel ∈ nodeIds doc)
    (x : String) :
    x ∈ lineage doc sel ↔
      x = sel ∨ Relation.ReflTransGen (AncStep doc) sel x ∨
        Relation.ReflTransGen (DescStep doc) sel x := by
  have hup := bfsRun_spec (parentsOf doc) (nodeIds doc) (parentsOf_subset_nodeIds doc) sel
    (doc.nodes.length + 1) (lineage_fuel doc sel) x
  have hdown := bfsRun_spec (childrenOf doc) (nodeIds doc) (childrenOf_subset_nodeIds doc)
    sel (doc.nodes.length + 1) (lineage_fuel doc sel) x
  have hrel1 : (fun a b => b ∈ parentsOf doc a) = AncStep doc := by
    funext a b
    exact propext (parentsOf_iff doc a b)
  have hrel2 : (fun a b => b ∈ childrenOf doc a) = DescStep doc := by
    funext a b
    simp only [DescStep]
    exact propext (childrenOf_iff doc a b)
  rw [hrel1] at hup
  rw [hrel2] at hdown
  rw [lineage, List.mem_append, hup, hdown]
  constructor
  · rintro (h | h)
    · exact Or.inr (Or.inl h)
    · exact Or.inr (Or.inr h)
  · rintro (rfl | h | h)
    · exact Or.inl Relation.ReflTransGen.refl
    · exact Or.inl h
    · exact Or.inr h

/-- Witness for C1 on the chain document, selected `C`, query `A`. -/
theorem lineage_resolves_witness :
    "C" ∈ nodeIds docChain ∧
      ("A" ∈ lineage docChain "C" ↔
        ("A" = "C" ∨ Relation.ReflTransGen (AncStep docChain) "C" "A" ∨
          Relation.ReflTransGen (DescStep docChain) "C" "A")) :=
  ⟨by decide, lineage_resolves docChain "C" (by decide) "A"⟩

/-! ### C10: inspector direct relations -/

lemma directRelationsStep_mem (doc : GraphData) (s : NodeData) (acc : DirectRelations)
    (l : LinkData) :
    (∀ n : NodeData, n ∈ (directRelationsStep doc s acc l).upstream ↔
        n ∈ acc.upstream ∨ ∃ oid, otherEndpoint s.id l = some oid ∧ oid ≠ "" ∧
          findNode doc oid = some n ∧ n.layer < s.layer) ∧
      (∀ n : NodeData, n ∈ (directRelationsStep doc s acc l).downstream ↔
        n ∈ acc.downstream ∨ ∃ oid, otherEndpoint s.id l = some oid ∧ oid ≠ "" ∧
          findNode doc oid = some n ∧ s.layer < n.layer) ∧
      (∀ lk : LinkData, lk ∈ (directRelationsStep doc s acc l).links ↔
        lk ∈ acc.links ∨ (lk = l ∧ ∃ oid nb, otherEndpoint s.id l = some oid ∧ oid ≠ "" ∧
          findNode doc oid = some nb)) := by
  rcases hoe : otherEndpoint s.id l with _ | oid
  · simp [directRelationsStep, hoe]
  · by_cases hne : oid ≠ ""
    · rcases hfn : findNode doc oid with _ | nb
      · simp [directRelationsStep, hoe, hne, hfn]
      · by_cases hup : nb.layer < s.layer
        · have hstep : directRelationsStep doc s acc l =
              { acc with upstream := acc.upstream ++ [nb], links := acc.links ++ [l] } := by
            simp [directRelationsStep, hoe, hne, hfn, hup]
          rw [hstep]
          refine ⟨fun n => ?_, fun n => ?_, fun lk => ?_⟩
          · simp only [List.mem_append, List.mem_singleton, Option.some.injEq]
            constructor
            · rintro (h | rfl)
              · exact Or.inl h
              · exact Or.inr ⟨oid, rfl, hne, hfn, hup⟩
            · rintro (h | ⟨oid', hoid', hne', hfn', hlt'⟩)
              · exact Or.inl h
              · subst hoid'
                rw [hfn] at hfn'
                injection hfn' with he
                exact Or.inr he.symm
          · simp only [Option.some.injEq]
            constructor
            · intro h
              exact Or.inl h
            · rintro (h | ⟨oid', hoid', hne', hfn', hlt'⟩)
              · exact h
              · subst hoid'
                rw [hfn] at hfn'
                injection hfn' with he
                subst he
                omega
          · simp only [List.mem_append, List.mem_singleton, Option.some.injEq]
            constructor
            · rintro (h | rfl)
              · exact Or.inl h
              · exact Or.inr ⟨rfl, oid, nb, rfl, hne, hfn⟩
            · rintro (h | ⟨rfl, _⟩)
              · exact Or.inl h
              · exact Or.inr rfl
        · by_cases hdown : s.layer < nb.layer
          · have hstep : directRelationsStep doc s acc l =
                { acc with downstream := acc.downstream ++ [nb],
                           links := acc.links ++ [l] } := by
              simp [directRelationsStep, hoe, hne, hfn, hup, hdown]
            rw [hstep]
            refine ⟨fun n => ?_, fun n => ?_, fun lk => ?_⟩
            · simp only [Option.some.injEq]
              constructor
              · intro h
                exact Or.inl h
              · rintro (h | ⟨oid', hoid', hne', hfn', hlt'⟩)
                · exact h
                · subst hoid'
                  rw [hfn] at hfn'
                  injection hfn' with he
                  subst he
                  omega
            · simp only [List.mem_append, List.mem_singleton, Option.some.injEq]
              constructor
              · rintro (h | rfl)
                · exact Or.inl h
                · exact Or.inr ⟨oid, rfl, hne, hfn, hdown⟩
              · rintro (h | ⟨oid', hoid', hne', hfn', hlt'⟩)
                · exact Or.inl h
                · subst hoid'
                  rw [hfn] at hfn'
                  injection hfn' with he
                  exact Or.inr he.symm
            · simp only [List.mem_append, List.mem_singleton, Option.some.injEq]
              constructor
              · rintro (h | rfl)
                · exact Or.inl h
                · exact Or.inr ⟨rfl, oid, nb, rfl, hne, hfn⟩
              · rintro (h | ⟨rfl, _⟩)
                · exact Or.inl h
                · exact Or.inr rfl
          · have hstep : directRelationsStep doc s acc l =
                { acc with links := acc.links ++ [l] } := by
              simp [directRelationsStep, hoe, hne, hfn, hup, hdown]
            rw [hstep]
            refine ⟨fun n => ?_, fun n => ?_, fun lk => ?_⟩
            · simp only [Option.some.injEq]
              constructor
              · intro h
                exact Or.inl h
              · rintro (h | ⟨oid', hoid', hne', hfn', hlt'⟩)
                · exact h
                · subst hoid'
                  rw [hfn] at hfn'
                  injection hfn' with he
                  subst he
                  omega
            · simp only [Option.some.injEq]
              constructor
              · intro h
                exact Or.inl h
              · rintro (h | ⟨oid', hoid', hne', hfn', hlt'⟩)
                · exact h
                · subst hoid'
                  rw [hfn] at hfn'
                  injection hfn' with he
                  subst he
                  omega
            · simp only [List.mem_append, List.mem_singleton, Option.some.injEq]
              constructor
              · rintro (h | rfl)
                · exact Or.inl h
                · exact Or.inr ⟨rfl, oid, nb, rfl, hne, hfn⟩
              · rintro (h | ⟨rfl, _⟩)
                · exact Or.inl h
                · exact Or.inr rfl
    · simp only [ne_eq, not_not] at hne
      subst hne
      simp [directRelationsStep, hoe]

lemma directRelations_foldl (doc : GraphData) (s : NodeData) :
    ∀ (ls : List LinkData) (acc : DirectRelations),
      (∀ n : NodeData, n ∈ (ls.foldl (directRelationsStep doc s) acc).upstream ↔
          n ∈ acc.upstream ∨ ∃ l ∈ ls, ∃ oid, otherEndpoint s.id l = some oid ∧
            oid ≠ "" ∧ findNode doc oid = some n ∧ n.layer < s.layer) ∧
        (∀ n : NodeData, n ∈ (ls.foldl (directRelationsStep doc s) acc).downstream ↔
          n ∈ acc.downstream ∨ ∃ l ∈ ls, ∃ oid, otherEndpoint s.id l = some oid ∧
            oid ≠ "" ∧ findNode doc oid = some n ∧ s.layer < n.layer) ∧
        (∀ lk : LinkData, lk ∈ (ls.foldl (directRelationsStep doc s) acc).links ↔
          lk ∈ acc.links ∨ (lk ∈ ls ∧ ∃ oid nb, otherEndpoint s.id lk = some oid ∧
            oid ≠ "" ∧ findNode doc oid = some nb)) := by
  intro ls
  induction ls with
  | nil => intro acc; simp
  | cons l rest ih =>
      intro acc
      obtain ⟨ihu, ihd, ihl⟩ := ih (directRelationsStep doc s acc l)
      obtain ⟨hsu, hsd, hsl⟩ := directRelationsStep_mem doc s acc l
      refine ⟨fun n => ?_, fun n => ?_, fun lk => ?_⟩
      · rw [List.foldl_cons, ihu n]
        rw [hsu n]
        simp only [List.mem_cons, exists_eq_or_imp]
        exact or_assoc
      · rw [List.foldl_cons, ihd n]
        rw [hsd n]
        simp only [List.mem_cons, exists_eq_or_imp]
        exact or_assoc
      · rw [List.foldl_cons, ihl lk]
        rw [hsl lk]
        simp only [List.mem_cons]
        constructor
        · rintro ((h | ⟨rfl, hex⟩) | ⟨hmem, hex⟩)
          · exact Or.inl h
          · exact Or.inr ⟨Or.inl rfl, hex⟩
          · exact Or.inr ⟨Or.inr hmem, hex⟩
        · rintro (h | ⟨hor, hex⟩)
          · exact Or.inl (Or.inl h)
          · rcases hor with rfl | hmem
            · exact Or.inl (Or.inr ⟨rfl, hex⟩)
            · exact Or.inr ⟨hmem, hex⟩

/-- Counterexample to C10 as stated: the selected node of
`docEmptyNeighbor` has a resolvable strictly-smaller-layer neighbour (the
layer-0 node whose id is the empty string), yet neither the upstream list
contains it nor is the link recorded: the source's `if (otherId)` guard
treats the empty string as falsy and skips the link entirely. -/
theorem directRelations_empty_id_counterexample :
    selEmptyNeighbor ∈ docEmptyNeighbor.nodes ∧
      (⟨"", "s"⟩ : LinkData) ∈ docEmptyNeighbor.links ∧
      findNode docEmptyNeighbor "" = some ⟨"", "root", 0, .objective, none⟩ ∧
      (⟨"", "root", 0, .objective, none⟩ : NodeData).layer < selEmptyNeighbor.layer ∧
      (⟨"", "root", 0, .objective, none⟩ : NodeData) ∉
        (directRelations docEmptyNeighbor (some selEmptyNeighbor)).upstream ∧
      (directRelations docEmptyNeighbor (some selEmptyNeighbor)).links = [] := by
  decide

/-- C10 (amended: neighbours whose id is the empty string are skipped
entirely, by the falsiness of `""` in the `if (otherId)` guard): for a
selected node, a node is in the upstream list iff some link pairs the
selection with a resolvable, non-empty-id neighbour of strictly smaller
layer; the downstream list likewise with strictly larger layer; and a link
is recorded iff its opposite endpoint is non-empty and resolvable,
regardless of the layer comparison (so a same-layer neighbour appears in
neither list while its link is still recorded). -/
theorem directRelations_strict_partition (doc : GraphData) (s : NodeData) :
    (∀ n : NodeData, n ∈ (directRelations doc (some s)).upstream ↔
        ∃ l ∈ doc.links, ∃ oid, otherEndpoint s.id l = some oid ∧ oid ≠ "" ∧
          findNode doc oid = some n ∧ n.layer < s.layer) ∧
      (∀ n : NodeData, n ∈ (directRelations doc (some s)).downstream ↔
        ∃ l ∈ doc.links, ∃ oid, otherEndpoint s.id l = some oid ∧ oid ≠ "" ∧
          findNode doc oid = some n ∧ s.layer < n.layer) ∧
      (∀ lk : LinkData, lk ∈ (directRelations doc (some s)).links ↔
        lk ∈ doc.links ∧ ∃ oid nb, otherEndpoint s.id lk = some oid ∧ oid ≠ "" ∧
          findNode doc oid = some nb) := by
  obtain ⟨hu, hd, hl⟩ := directRelations_foldl doc s doc.links ⟨[], [], []⟩
  refine ⟨fun n => ?_, fun n => ?_, fun lk => ?_⟩
  · rw [directRelations, hu n]
    simp
  · rw [directRelations, hd n]
    simp
  · rw [directRelations, hl lk]
    simp

end EduMatrix
